import Mathlib

/-
Verification of the key-discovery and per-customer schema-mapping subsystem of
the data_model_v3_scripts repository.

The embedding follows the Python sources:
  * src/src/data_transformation/transformation/simple_key_discoverer_all_customers_mt.py
  * src/src/data_transformation/transformation/simple_tag_group_key_discoverer.py
  * src/src/data_transformation/transformation/simple_key_discovery.py

Modelling conventions:
  * Python exceptions are a `PyError` value returned through `Except`.
  * Timestamps inside one calendar day are modelled as seconds after midnight
    (the Python code formats `datetime` values into strings; the formatting is
    order- and value-preserving inside one day).
  * Python `set` becomes `Finset String`; Python `dict` (insertion ordered,
    unique keys) becomes an association list `List (key × value)` updated in
    place.
  * Calendar dates are modelled as natural numbers (days since an epoch);
    `datetime.strptime` format validation is vacuous in this model since every
    natural number is a valid date.
-/

namespace KeyDiscovery

/-- Kinds of Python exceptions raised by the scripts: `ZeroDivisionError`
(from `1440 % 0`), `ValueError` (configuration errors), `SystemExit`
(top-level aborts) and a generic `Exception`. -/
inductive PyError where
  | zeroDivision : PyError
  | valueError : String → PyError
  | systemExit : String → PyError
  | exception : String → PyError
deriving DecidableEq, Repr

/-- Model of `build_chunks_for_day` (simple_key_discoverer_all_customers_mt.py,
lines 87-105, identical in simple_tag_group_key_discoverer.py lines 48-62).
The date argument only offsets every timestamp by a whole number of days, so a
chunk is represented by its start and end expressed in seconds after midnight.
Python evaluates `1440 % chunk_minutes` before any comparison, so
`chunk_minutes = 0` raises `ZeroDivisionError` rather than `ValueError`. -/
def build_chunks_for_day (chunk_minutes : Nat) : Except PyError (List (Nat × Nat)) :=
  if chunk_minutes = 0 then
    .error .zeroDivision
  else if 1440 % chunk_minutes ≠ 0 then
    .error (.valueError "chunk-mins must evenly divide 1440")
  else if 60 ≤ chunk_minutes ∧ chunk_minutes % 60 ≠ 0 then
    .error (.valueError "chunk-mins of at least 60 must be a multiple of 60")
  else
    .ok ((List.range (1440 / chunk_minutes)).map fun i =>
      (i * (chunk_minutes * 60), i * (chunk_minutes * 60) + (chunk_minutes * 60 - 1)))

/-- Model of `iter_days` (simple_key_discoverer_all_customers_mt.py lines
107-129, identical in simple_tag_group_key_discoverer.py lines 65-87).  Dates
are day numbers; `none` models an absent argument.  When `date` is given the
function returns the singleton list at once and never touches the range
arguments; otherwise both range endpoints must be present and the inclusive
range is produced unless the end precedes the start. -/
def iter_days (date date_start date_end : Option Nat) : Except PyError (List Nat) :=
  match date with
  | some d => .ok [d]
  | none =>
    match date_start, date_end with
    | some d0, some d1 =>
      if d1 < d0 then
        .error (.systemExit "--date-end must not be earlier than --date-start")
      else
        .ok ((List.range (d1 + 1 - d0)).map fun k => d0 + k)
    | _, _ => .error (.systemExit "provide --date or both --date-start and --date-end")

/-- Characters removed by Python `str.strip()` with no argument (ASCII
whitespace; the scripts' keys are ASCII metric names). -/
def isPySpace (c : Char) : Bool :=
  c == ' ' || c == '\t' || c == '\n' || c == '\r' || c == '\x0b' || c == '\x0c'

/-- Model of Python `str.strip()`: remove leading and trailing whitespace. -/
def pyStrip (s : String) : String :=
  ⟨((s.data.dropWhile isPySpace).reverse.dropWhile isPySpace).reverse⟩

/-- Model of the key filter `if r and str(r[0]).strip()` used when collecting
rows: a key is kept exactly when its stripped form is non-empty (truthy).  The
key itself is kept verbatim; only the filter looks at the stripped form. -/
def keepKey (s : String) : Bool :=
  !(pyStrip s).isEmpty

/-- Model of `_run_chunk_query` (simple_key_discoverer_all_customers_mt.py,
lines 191-215): the two result-row lists (one key string per row) are filtered
by `keepKey`, and the surviving key strings are returned unchanged.  The same
filter appears in `SimpleKeyDiscoverer.discover_all_keys`
(simple_key_discovery.py lines 118-134, `if key and key.strip()`). -/
def run_chunk_query (int_rows float_rows : List String) : List String × List String :=
  (int_rows.filter keepKey, float_rows.filter keepKey)

/-- Helper for reasoning about Python f-strings such as `f"int{i}"`: the
most-significant-first decimal digit characters of a natural number.  Proved
below to agree with the digit list underlying `Nat.repr`. -/
def natDigits (n : Nat) : List Char :=
  if n < 10 then [Nat.digitChar n]
  else natDigits (n / 10) ++ [Nat.digitChar (n % 10)]
termination_by n
decreasing_by exact Nat.div_lt_self (by omega) (by omega)

/-- Model of Python `sorted(set(l))` on strings: the distinct elements of `l`
in increasing lexicographic (code-point) order.  `build_nested_mapping`
(simple_key_discoverer_all_customers_mt.py line 272) applies `sorted` to a set
and `SimpleKeyDiscoverer.generate_nested_mapping` (simple_key_discovery.py
line 177) applies `sorted(set(...))` to a list; both produce exactly this. -/
def sortedDedup (l : List String) : List String :=
  l.toFinset.sort (· ≤ ·)

/-- The per-customer entry of the nested mapping document
(simple_key_discoverer_all_customers_mt.py lines 280-289).  Python dicts are
modelled as association lists in insertion order. -/
structure CustomerBlock where
  int_keys : List String
  float_keys : List String
  int_mapping : List (String × String)
  float_mapping : List (String × String)
  reverse_int_mapping : List (String × String)
  reverse_float_mapping : List (String × String)
  int_columns : Nat
  float_columns : Nat
deriving DecidableEq, Repr

/-- Per-customer body of the `build_nested_mapping` loop
(simple_key_discoverer_all_customers_mt.py lines 271-289, equivalent to
simple_key_discovery.py lines 176-204): sort and deduplicate the observed
keys, then `int_mapping = {k: f"int{i}" for i, k in enumerate(uniq_int, 1)}`
and the reverse dict `{v: k for k, v in int_mapping.items()}`; same for
float. -/
def buildCustomerBlock (int_list float_list : List String) : CustomerBlock :=
  let uniq_int := sortedDedup int_list
  let uniq_float := sortedDedup float_list
  let int_mapping := (uniq_int.enumFrom 1).map fun q => (q.2, "int" ++ Nat.repr q.1)
  let float_mapping := (uniq_float.enumFrom 1).map fun q => (q.2, "float" ++ Nat.repr q.1)
  { int_keys := uniq_int
    float_keys := uniq_float
    int_mapping := int_mapping
    float_mapping := float_mapping
    reverse_int_mapping := int_mapping.map fun q => (q.2, q.1)
    reverse_float_mapping := float_mapping.map fun q => (q.2, q.1)
    int_columns := uniq_int.length
    float_columns := uniq_float.length }

/-- One completed chunk future of `discover_all_keys_for_customer_day_mt`
(simple_key_discoverer_all_customers_mt.py lines 244-257): a failed task
(`none`, the `except` branch) is logged and skipped; a successful task's int
and float key lists are unioned into the running sets, each guarded by a
non-emptiness check as in the source (`if ints: int_keys.update(ints)`). -/
def discover_step (acc : Finset String × Finset String)
    (r : Option (List String × List String)) : Finset String × Finset String :=
  match r with
  | none => acc
  | some (ints, floats) =>
    (if ints.isEmpty then acc.1 else acc.1 ∪ ints.toFinset,
     if floats.isEmpty then acc.2 else acc.2 ∪ floats.toFinset)

/-- Model of `discover_all_keys_for_customer_day_mt`
(simple_key_discoverer_all_customers_mt.py lines 220-259): merge all completed
window-scan outcomes of one (tenant, day).  The completion order of
`as_completed` is immaterial because the merge is a set union; outcomes are
given in submission order. -/
def discover_all_keys_for_customer_day_mt
    (results : List (Option (List String × List String))) :
    Finset String × Finset String :=
  results.foldl discover_step (∅, ∅)

/-- Model of `SimpleKeyDiscoverer.discover_all_keys` (simple_key_discovery.py
lines 23-158): the sequential chunk loop adds each successful chunk's keys
(filtered by `if key and key.strip()`) to the running sets and counts
successful chunks; after the loop it raises
`Exception("No chunks processed successfully")` when `successful_chunks == 0`
and otherwise returns the sorted key lists.  A chunk outcome is `none` for the
`except` branch and otherwise carries the flattened int-group and float-group
key lists of the aggregation row. -/
def discover_all_keys (results : List (Option (List String × List String))) :
    Except PyError (List String × List String) :=
  let r := results.foldl
    (fun (acc : Finset String × Finset String × Nat) o =>
      match o with
      | none => acc
      | some (ints, floats) =>
        (acc.1 ∪ (ints.filter keepKey).toFinset,
         acc.2.1 ∪ (floats.filter keepKey).toFinset,
         acc.2.2 + 1))
    (∅, ∅, 0)
  if r.2.2 = 0 then
    .error (.exception "No chunks processed successfully")
  else
    .ok (r.1.sort (· ≤ ·), r.2.1.sort (· ≤ ·))

/-- Model of the per-(day, tenant) accumulation of `main`
(simple_key_discoverer_all_customers_mt.py lines 395-398): create the tenant's
entry as a pair of empty sets when absent, then union the day's int and float
key sets into it (`customer_to_keys[cid][0].update(day_ints)` etc.).  The
Python dict is an association list in insertion order with unique keys. -/
def step_mt : List (Nat × Finset String × Finset String) → Nat →
    Finset String × Finset String → List (Nat × Finset String × Finset String)
  | [], cid, d => [(cid, ∅ ∪ d.1, ∅ ∪ d.2)]
  | e :: rest, cid, d =>
    if e.1 = cid then (e.1, e.2.1 ∪ d.1, e.2.2 ∪ d.2) :: rest
    else e :: step_mt rest cid d

/-- The whole-run accumulation of `main` over the (tenant, day-result) events
in processing order. -/
def run_mt (evs : List (Nat × Finset String × Finset String)) :
    List (Nat × Finset String × Finset String) :=
  evs.foldl (fun acc e => step_mt acc e.1 e.2) []

/-- Model of the per-(day, tenant) accumulation of the tag-group discoverer
(simple_tag_group_key_discoverer.py lines 292-301):
`customer_to_keys[cid] = all_keys` replaces any existing entry instead of
unioning into it. -/
def step_tag : List (Nat × Finset String) → Nat → Finset String →
    List (Nat × Finset String)
  | [], cid, d => [(cid, d)]
  | e :: rest, cid, d =>
    if e.1 = cid then (e.1, d) :: rest
    else e :: step_tag rest cid d

/-- The whole-run accumulation of the tag-group discoverer's `main` over the
(tenant, day-result) events in processing order. -/
def run_tag (evs : List (Nat × Finset String)) : List (Nat × Finset String) :=
  evs.foldl (fun acc e => step_tag acc e.1 e.2) []

/-- The accumulated key sets of one tenant (the empty pair when the tenant has
no entry yet). -/
def lookupKeys (acc : List (Nat × Finset String × Finset String)) (c : Nat) :
    Finset String × Finset String :=
  (acc.lookup c).getD (∅, ∅)

/-- The union of all day results recorded for one tenant in an event
sequence. -/
def dayUnion (evs : List (Nat × Finset String × Finset String)) (c : Nat) :
    Finset String × Finset String :=
  (((evs.filter fun e => e.1 == c).map fun e => e.2.1).foldl (· ∪ ·) ∅,
   ((evs.filter fun e => e.1 == c).map fun e => e.2.2).foldl (· ∪ ·) ∅)

/-- One processed day of `main` (simple_key_discoverer_all_customers_mt.py
lines 369-402): the tenants discovered that day, each with its window-scan
outcomes, folded into the cross-day accumulator.  A day with no discovered
tenants is the empty list (the `continue` branch). -/
def process_day (acc : List (Nat × Finset String × Finset String))
    (day : List (Nat × List (Option (List String × List String)))) :
    List (Nat × Finset String × Finset String) :=
  day.foldl (fun a e => step_mt a e.1 (discover_all_keys_for_customer_day_mt e.2)) acc

/-- The run-level accumulation of `main` over all processed days. -/
def run_accumulate
    (days : List (List (Nat × List (Option (List String × List String))))) :
    List (Nat × Finset String × Finset String) :=
  days.foldl process_day []

/-- The canonical form of one tenant's builder input: the tenant id with its
key lists sorted and deduplicated — exactly what the builder consumes of the
entry.  Two runs have the same per-tenant key sets precisely when their entry
lists agree elementwise under this normalization (up to ordering). -/
def normalizeEntry (e : Nat × List String × List String) :
    Nat × List String × List String :=
  (e.1, sortedDedup e.2.1, sortedDedup e.2.2)

/-- The mapping document assembled by `build_nested_mapping` (metadata such as
the generation timestamp is I/O and not modelled). -/
structure MappingDoc where
  max_int_columns : Nat
  max_float_columns : Nat
  customers : List (Nat × CustomerBlock)
deriving DecidableEq, Repr

/-- One iteration of the `build_nested_mapping` loop over
`customer_to_keys.items()`: append the customer block and track the running
column maxima (`max_int_cols = max(max_int_cols, len(uniq_int))`). -/
def buildStep (acc : List (Nat × CustomerBlock) × Nat × Nat)
    (e : Nat × List String × List String) :
    List (Nat × CustomerBlock) × Nat × Nat :=
  let cb := buildCustomerBlock e.2.1 e.2.2
  (acc.1 ++ [(e.1, cb)], max acc.2.1 cb.int_columns, max acc.2.2 cb.float_columns)

/-- Model of `build_nested_mapping`
(simple_key_discoverer_all_customers_mt.py lines 264-306): fold the per-tenant
loop over the accumulated `customer_to_keys` entries (each tenant's key sets
given in an arbitrary iteration order as lists). -/
def build_nested_mapping (m : List (Nat × List String × List String)) : MappingDoc :=
  let r := m.foldl buildStep ([], 0, 0)
  { max_int_columns := r.2.1
    max_float_columns := r.2.2
    customers := r.1 }

/-- Model of the tail of `main` (simple_key_discoverer_all_customers_mt.py
lines 404-423): abort with `SystemExit` when `customer_to_keys` is empty,
otherwise build the mapping document from the accumulated per-tenant key sets
and persist it (the document is returned here; the JSON dump is I/O). -/
def main_result
    (days : List (List (Nat × List (Option (List String × List String))))) :
    Except PyError MappingDoc :=
  let acc := run_accumulate days
  if acc.isEmpty then
    .error (.systemExit "no customers or keys found in the given date range")
  else
    .ok (build_nested_mapping (acc.map fun e =>
      (e.1, e.2.1.sort (· ≤ ·), e.2.2.sort (· ≤ ·))))

end KeyDiscovery

namespace KeyDiscovery

/-- Helper: a key passes the filter exactly when it contains at least one
non-whitespace character, i.e. it is neither empty nor whitespace-only. -/
theorem keepKey_iff (s : String) :
    keepKey s = true ↔ ∃ c ∈ s.data, isPySpace c = false := by
  have hdata : (pyStrip s = "") ↔
      ((s.data.dropWhile isPySpace).reverse.dropWhile isPySpace).reverse = [] := by
    rw [String.ext_iff]
    exact Iff.rfl
  have hkeep : keepKey s = true ↔ ¬ pyStrip s = "" := by
    simp [keepKey, Bool.eq_false_iff, String.isEmpty_iff]
  rw [hkeep, hdata]
  constructor
  · intro h
    rw [List.reverse_eq_nil_iff, List.dropWhile_eq_nil_iff] at h
    push_neg at h
    obtain ⟨c, hc, hcp⟩ := h
    rw [List.mem_reverse] at hc
    exact ⟨c, (List.dropWhile_sublist _).subset hc, by
      simpa using hcp⟩
  · rintro ⟨c, hc, hcp⟩ h
    rw [List.reverse_eq_nil_iff, List.dropWhile_eq_nil_iff] at h
    have hcd : c ∈ s.data.dropWhile isPySpace := by
      have hsplit := List.takeWhile_append_dropWhile (p := isPySpace) (l := s.data)
      rw [← hsplit] at hc
      rcases List.mem_append.mp hc with htk | hdr
      · exact absurd (List.mem_takeWhile_imp htk) (by simp [hcp])
      · exact hdr
    have := h c (List.mem_reverse.mpr hcd)
    simp [hcp] at this

/-- C4 (counterexample): the claim says every kept key is whitespace-trimmed,
but a window scan that observes the key " a" keeps it verbatim, leading space
included: the kept key differs from its stripped form and starts with a space
character. -/
theorem run_chunk_query_keeps_untrimmed_key :
    (run_chunk_query [" a"] []).1 = [" a"] ∧
    pyStrip " a" ≠ " a" ∧
    (" a").data.head? = some ' ' := by
  refine ⟨?_, ?_, rfl⟩
  · decide
  · decide

/-- C4 (amended): the Range Scanner's returned key collections contain exactly
the observed key strings that are not empty and not whitespace-only (those are
discarded); the kept keys are returned verbatim, NOT trimmed — a kept key may
still carry leading or trailing whitespace, it is only guaranteed to contain
at least one non-whitespace character. -/
theorem run_chunk_query_filter_spec :
    (∀ int_rows float_rows k,
      k ∈ (run_chunk_query int_rows float_rows).1 ↔
        (k ∈ int_rows ∧ keepKey k = true)) ∧
    (∀ int_rows float_rows k,
      k ∈ (run_chunk_query int_rows float_rows).2 ↔
        (k ∈ float_rows ∧ keepKey k = true)) ∧
    (∀ s : String, keepKey s = true ↔ ∃ c ∈ s.data, isPySpace c = false) := by
  refine ⟨?_, ?_, keepKey_iff⟩
  · intro int_rows float_rows k
    simp [run_chunk_query, List.mem_filter]
  · intro int_rows float_rows k
    simp [run_chunk_query, List.mem_filter]

/-- Witness for `run_chunk_query_filter_spec`: a blank key and a whitespace-only
key are discarded while a real key survives. -/
theorem run_chunk_query_filter_spec_witness :
    ("abc" ∈ (run_chunk_query ["", "  ", "abc"] []).1 ↔
      ("abc" ∈ ["", "  ", "abc"] ∧ keepKey "abc" = true)) ∧
    ¬ "  " ∈ (run_chunk_query ["", "  ", "abc"] []).1 :=
  ⟨run_chunk_query_filter_spec.1 ["", "  ", "abc"] [] "abc", by decide⟩

/-- C7: for every positive `chunk_minutes`, building a day of chunks raises a
configuration `ValueError` if and only if `chunk_minutes` does not divide 1440
or is at least 60 without being a multiple of 60; when both constraints hold
the builder returns exactly `1440 / chunk_minutes` uniform windows, window `i`
starting `i * chunk_minutes` minutes after midnight, each window ending one
second before the next begins, the first starting at midnight and the last
ending at second 86399, so the windows are disjoint and tile the day. -/
theorem build_chunks_valid_iff_and_tiling (cm : Nat) (hpos : 0 < cm) :
    ((∃ msg, build_chunks_for_day cm = .error (.valueError msg)) ↔
      (¬ cm ∣ 1440 ∨ (60 ≤ cm ∧ ¬ 60 ∣ cm))) ∧
    (cm ∣ 1440 → (60 ≤ cm → 60 ∣ cm) →
      ∃ l, build_chunks_for_day cm = .ok l ∧
        l.length = 1440 / cm ∧
        (∀ i : Nat, l[i]? =
          if i < 1440 / cm then
            some (i * (cm * 60), i * (cm * 60) + (cm * 60 - 1))
          else none) ∧
        (∀ i s e s' e', l[i]? = some (s, e) → l[i+1]? = some (s', e') →
          e + 1 = s' ∧ e < s') ∧
        l[0]? = some (0, cm * 60 - 1) ∧
        l[1440 / cm - 1]? = some ((1440 / cm - 1) * (cm * 60), 86399)) := by
  have hne : ¬ cm = 0 := by omega
  have hdvd_iff : 1440 % cm = 0 ↔ cm ∣ 1440 := Nat.dvd_iff_mod_eq_zero.symm
  constructor
  · by_cases h1 : 1440 % cm = 0
    · by_cases h2 : 60 ≤ cm ∧ ¬ 60 ∣ cm
      · have h2m : 60 ≤ cm ∧ cm % 60 ≠ 0 := by
          obtain ⟨ha, hb⟩ := h2
          exact ⟨ha, by omega⟩
        constructor
        · intro _; exact Or.inr h2
        · intro _
          exact ⟨"chunk-mins of at least 60 must be a multiple of 60", by
            simp [build_chunks_for_day, hne, h1, h2m.1, h2m.2]⟩
      · have h2m : ¬ (60 ≤ cm ∧ cm % 60 ≠ 0) := by
          intro hc
          exact h2 ⟨hc.1, by omega⟩
        constructor
        · rintro ⟨msg, hmsg⟩
          simp [build_chunks_for_day, hne, h1, h2m] at hmsg
        · rintro (hc | hc)
          · exact absurd (hdvd_iff.mp h1) hc
          · exact absurd hc h2
    · constructor
      · intro _
        exact Or.inl (fun hc => h1 (hdvd_iff.mpr hc))
      · intro _
        exact ⟨"chunk-mins must evenly divide 1440", by
          simp [build_chunks_for_day, hne, h1]⟩
  · intro hdvd hm60
    have h1 : 1440 % cm = 0 := hdvd_iff.mpr hdvd
    have h2m : ¬ (60 ≤ cm ∧ cm % 60 ≠ 0) := by
      intro hc
      have := hm60 hc.1
      omega
    have hNpos : 0 < 1440 / cm := Nat.div_pos (Nat.le_of_dvd (by omega) hdvd) hpos
    have hNc : (1440 / cm) * (cm * 60) = 86400 := by
      rw [← Nat.mul_assoc, Nat.div_mul_cancel hdvd]
    refine ⟨(List.range (1440 / cm)).map fun i =>
      (i * (cm * 60), i * (cm * 60) + (cm * 60 - 1)), ?_, ?_, ?_⟩
    · simp [build_chunks_for_day, hne, h1, h2m]
    · simp
    · have hformula : ∀ i : Nat, ((List.range (1440 / cm)).map fun i =>
          (i * (cm * 60), i * (cm * 60) + (cm * 60 - 1)))[i]? =
          if i < 1440 / cm then
            some (i * (cm * 60), i * (cm * 60) + (cm * 60 - 1))
          else none := by
        intro i
        by_cases hi : i < 1440 / cm
        · simp [List.getElem?_range hi, hi]
        · have hnone : (List.range (1440 / cm))[i]? = none := by
            rw [List.getElem?_eq_none]
            simpa using Nat.le_of_not_lt hi
          simp [hnone, hi]
      refine ⟨hformula, ?_, ?_, ?_⟩
      · intro i s e s' e' hi hi1
        rw [hformula i] at hi
        rw [hformula (i + 1)] at hi1
        by_cases hlt1 : i + 1 < 1440 / cm
        · have hlt : i < 1440 / cm := by omega
          simp only [hlt, if_pos, Option.some.injEq, Prod.mk.injEq] at hi
          simp only [hlt1, if_pos, Option.some.injEq, Prod.mk.injEq] at hi1
          obtain ⟨hs, he⟩ := hi
          obtain ⟨hs', he'⟩ := hi1
          subst hs he hs' he'
          have hc : 1 ≤ cm * 60 := by omega
          rw [Nat.succ_mul]
          generalize i * (cm * 60) = a
          omega
        · simp [hlt1] at hi1
      · have h0 : (0 : Nat) < 1440 / cm := hNpos
        rw [hformula 0]
        simp [h0]
      · have hlast : 1440 / cm - 1 < 1440 / cm := by omega
        rw [hformula (1440 / cm - 1)]
        simp only [hlast, if_pos, Option.some.injEq, Prod.mk.injEq]
        refine ⟨trivial, ?_⟩
        obtain ⟨t, ht⟩ : ∃ t, 1440 / cm = t + 1 := ⟨1440 / cm - 1, by omega⟩
        rw [ht] at hNc
        rw [ht]
        simp only [Nat.add_sub_cancel]
        rw [Nat.succ_mul] at hNc
        have hc : 1 ≤ cm * 60 := by omega
        generalize hgen : t * (cm * 60) = a at hNc ⊢
        omega

/-- Witness for `build_chunks_valid_iff_and_tiling` at `chunk_minutes = 120`:
the day splits into 12 windows. -/
theorem build_chunks_valid_iff_and_tiling_witness :
    ∃ l, build_chunks_for_day 120 = .ok l ∧ l.length = 12 := by
  obtain ⟨-, h⟩ := build_chunks_valid_iff_and_tiling 120 (by decide)
  obtain ⟨l, hok, hlen, -⟩ := h (by decide) (fun _ => by decide)
  exact ⟨l, hok, by simpa using hlen⟩

/-- C10: the day-list builder gives an explicitly supplied single date absolute
precedence: it returns the singleton list and ignores the start and end range
arguments entirely, even when the supplied range is invalid (end before
start); the end-before-start validation error is raised only when no single
date is given. -/
theorem iter_days_single_date_precedence :
    (∀ d ds de, iter_days (some d) ds de = .ok [d]) ∧
    (∀ d0 d1, d1 < d0 →
      iter_days none (some d0) (some d1) =
        .error (.systemExit "--date-end must not be earlier than --date-start")) := by
  constructor
  · intro d ds de
    rfl
  · intro d0 d1 h
    simp [iter_days, h]

/-- Witness for `iter_days_single_date_precedence`: with a single date 5 and
an invalid range (start 9, end 3) the result is the singleton day list, while
the same invalid range without a single date aborts. -/
theorem iter_days_single_date_precedence_witness :
    iter_days (some 5) (some 9) (some 3) = .ok [5] ∧
    iter_days none (some 9) (some 3) =
      .error (.systemExit "--date-end must not be earlier than --date-start") :=
  ⟨iter_days_single_date_precedence.1 5 (some 9) (some 3),
   iter_days_single_date_precedence.2 9 3 (by decide)⟩

/-- C9: with `chunk_minutes = 0` the chunk builder fails on the divisibility
check itself (`1440 % 0` raises `ZeroDivisionError`), not with the documented
configuration `ValueError`; the configuration-error guarantee therefore only
holds for nonzero window sizes. -/
theorem build_chunks_zero_raises_zero_division :
    build_chunks_for_day 0 = .error .zeroDivision ∧
    ∀ msg : String, build_chunks_for_day 0 ≠ .error (.valueError msg) := by
  refine ⟨rfl, ?_⟩
  intro msg h
  simp [build_chunks_for_day] at h

end KeyDiscovery

namespace KeyDiscovery

/-- Unfolding equation for `natDigits`. -/
theorem natDigits_def (n : Nat) : natDigits n =
    if n < 10 then [Nat.digitChar n]
    else natDigits (n / 10) ++ [Nat.digitChar (n % 10)] := by
  rw [natDigits]

/-- The digit list of a number is never empty. -/
theorem natDigits_ne_nil (n : Nat) : natDigits n ≠ [] := by
  rw [natDigits_def]
  split
  · simp
  · simp

/-- With enough fuel, the core digit loop of `Nat.repr` produces `natDigits`
followed by the accumulator. -/
theorem toDigitsCore_eq_natDigits (f : Nat) :
    ∀ (n : Nat) (acc : List Char), n < f →
      Nat.toDigitsCore 10 f n acc = natDigits n ++ acc := by
  induction f with
  | zero => intro n acc h; omega
  | succ f ih =>
    intro n acc h
    simp only [Nat.toDigitsCore]
    by_cases h0 : n / 10 = 0
    · rw [if_pos h0]
      have hn : n < 10 := by omega
      rw [natDigits_def, if_pos hn, Nat.mod_eq_of_lt hn]
      rfl
    · rw [if_neg h0]
      have hn : ¬ n < 10 := by omega
      have hlt : n / 10 < f := by omega
      rw [ih (n / 10) (Nat.digitChar (n % 10) :: acc) hlt]
      rw [natDigits_def n, if_neg hn, List.append_assoc]
      rfl

/-- The decimal representation `Nat.repr` is the string of `natDigits`. -/
theorem repr_eq_natDigits (n : Nat) : Nat.repr n = (natDigits n).asString := by
  show (Nat.toDigits 10 n).asString = (natDigits n).asString
  unfold Nat.toDigits
  rw [toDigitsCore_eq_natDigits (n + 1) n [] (by omega), List.append_nil]

/-- Decimal digit characters determine the digit below ten. -/
theorem digitChar_inj_below_ten :
    ∀ a, a < 10 → ∀ b, b < 10 → Nat.digitChar a = Nat.digitChar b → a = b := by
  decide

/-- The digit lists of distinct numbers differ. -/
theorem natDigits_inj : ∀ m n : Nat, natDigits m = natDigits n → m = n := by
  intro m
  induction m using Nat.strong_induction_on with
  | _ m ih =>
    intro n h
    by_cases hm : m < 10 <;> by_cases hn : n < 10
    · rw [natDigits_def m, natDigits_def n, if_pos hm, if_pos hn] at h
      simp only [List.cons.injEq, and_true] at h
      exact digitChar_inj_below_ten m hm n hn h
    · rw [natDigits_def m, natDigits_def n, if_pos hm, if_neg hn] at h
      have hl := congrArg List.length h
      simp only [List.length_singleton, List.length_append, List.length_cons,
        List.length_nil] at hl
      have : natDigits (n / 10) = [] := List.length_eq_zero.mp (by omega)
      exact absurd this (natDigits_ne_nil _)
    · rw [natDigits_def m, natDigits_def n, if_neg hm, if_pos hn] at h
      have hl := congrArg List.length h
      simp only [List.length_singleton, List.length_append, List.length_cons,
        List.length_nil] at hl
      have : natDigits (m / 10) = [] := List.length_eq_zero.mp (by omega)
      exact absurd this (natDigits_ne_nil _)
    · rw [natDigits_def m, natDigits_def n, if_neg hm, if_neg hn] at h
      obtain ⟨h1, h2⟩ := List.append_inj' h rfl
      have e1 : m / 10 = n / 10 :=
        ih (m / 10) (Nat.div_lt_self (by omega) (by omega)) (n / 10) h1
      have e2 : m % 10 = n % 10 := by
        apply digitChar_inj_below_ten _ (Nat.mod_lt _ (by omega)) _ (Nat.mod_lt _ (by omega))
        simpa using h2
      omega

/-- Decimal representation is injective on natural numbers. -/
theorem repr_inj {m n : Nat} (h : Nat.repr m = Nat.repr n) : m = n := by
  rw [repr_eq_natDigits, repr_eq_natDigits] at h
  have hd := congrArg String.data h
  simp only [List.asString] at hd
  exact natDigits_inj m n hd

/-- Appending decimal representations to a fixed prefix string (the shape of
the f-strings producing column identifiers) is injective. -/
theorem repr_append_inj (p : String) {a b : Nat}
    (h : p ++ Nat.repr a = p ++ Nat.repr b) : a = b := by
  have hd := congrArg String.data h
  simp only [String.data_append] at hd
  exact repr_inj (String.ext (List.append_cancel_left hd))

end KeyDiscovery

namespace KeyDiscovery

/-- The sorted deduplicated key list has no duplicates. -/
theorem sortedDedup_nodup (l : List String) : (sortedDedup l).Nodup :=
  Finset.sort_nodup _ _

/-- The sorted deduplicated key list is strictly sorted lexicographically. -/
theorem sortedDedup_sorted (l : List String) :
    (sortedDedup l).Sorted (· < ·) :=
  Finset.sort_sorted_lt _

/-- Membership in the sorted deduplicated key list is membership in the
original observation list. -/
theorem mem_sortedDedup (l : List String) (k : String) :
    k ∈ sortedDedup l ↔ k ∈ l := by
  simp [sortedDedup, Finset.mem_sort, List.mem_toFinset]

/-- Sorting and deduplicating depends only on the underlying set of keys. -/
theorem sortedDedup_eq_of_toFinset_eq {l1 l2 : List String}
    (h : l1.toFinset = l2.toFinset) : sortedDedup l1 = sortedDedup l2 := by
  simp [sortedDedup, h]

/-- Sorting and deduplicating is idempotent. -/
theorem sortedDedup_idem (l : List String) :
    sortedDedup (sortedDedup l) = sortedDedup l := by
  simp [sortedDedup, Finset.sort_toFinset]

/-- The first components of an enumerated column mapping are the keys
themselves, in order. -/
theorem mapping_map_fst (l : List String) (p : String) (n : Nat) :
    ((l.enumFrom n).map fun q => (q.2, p ++ Nat.repr q.1)).map Prod.fst = l := by
  induction l generalizing n with
  | nil => rfl
  | cons a l ih =>
    simp only [List.enumFrom, List.map_cons]
    rw [ih (n + 1)]

/-- The second components of an enumerated column mapping are the contiguous
column identifiers, in order. -/
theorem mapping_map_snd (l : List String) (p : String) (n : Nat) :
    ((l.enumFrom n).map fun q => (q.2, p ++ Nat.repr q.1)).map Prod.snd =
      (List.range l.length).map fun i => p ++ Nat.repr (n + i) := by
  induction l generalizing n with
  | nil => rfl
  | cons a l ih =>
    simp only [List.enumFrom, List.map_cons, List.length_cons,
      List.range_succ_eq_map]
    rw [ih (n + 1)]
    have harith : ∀ i : Nat, n + 1 + i = n + (i + 1) := by omega
    simp [List.map_map, Function.comp, harith]

/-- Column identifiers starting from 1: the second components are
`p ++ repr (i + 1)` for `i` ranging over the key count. -/
theorem mapping_map_snd_one (l : List String) (p : String) :
    ((l.enumFrom 1).map fun q => (q.2, p ++ Nat.repr q.1)).map Prod.snd =
      (List.range l.length).map fun i => p ++ Nat.repr (i + 1) := by
  rw [mapping_map_snd]
  have harith : ∀ i : Nat, 1 + i = i + 1 := by omega
  simp [harith]

/-- The column identifiers of an enumerated mapping are pairwise distinct. -/
theorem mapping_snd_nodup (l : List String) (p : String) :
    (((l.enumFrom 1).map fun q => (q.2, p ++ Nat.repr q.1)).map Prod.snd).Nodup := by
  rw [mapping_map_snd_one]
  refine List.Nodup.map ?_ (List.nodup_range _)
  intro a b hab
  have := repr_append_inj p hab
  omega

/-- Entry `i` of an enumerated column mapping pairs key `i` with column
`i + 1`. -/
theorem mapping_getElem (l : List String) (p : String) (i : Nat) :
    ((l.enumFrom 1).map fun q => (q.2, p ++ Nat.repr q.1))[i]? =
      (l[i]?).map fun k => (k, p ++ Nat.repr (i + 1)) := by
  rw [List.getElem?_map, List.getElem?_enumFrom]
  cases h : l[i]? with
  | none => rfl
  | some k => simp [Nat.add_comm 1 i]

/-- Association-list lookup finds the value of a present key when the keys
are distinct. -/
theorem lookup_eq_some_of_mem {α β : Type} [BEq α] [LawfulBEq α] :
    ∀ (l : List (α × β)), (l.map Prod.fst).Nodup →
      ∀ a b, (a, b) ∈ l → l.lookup a = some b := by
  intro l
  induction l with
  | nil =>
    intro _ a b h
    simp at h
  | cons e l ih =>
    obtain ⟨e1, e2⟩ := e
    intro hn a b hm
    rw [List.map_cons] at hn
    have hn2 := List.nodup_cons.mp hn
    rcases List.mem_cons.mp hm with he | hm2
    · rw [← he]
      simp [List.lookup]
    · by_cases hae : a = e1
      · exfalso
        apply hn2.1
        subst hae
        exact List.mem_map.mpr ⟨(a, b), hm2, rfl⟩
      · have hbe : (a == e1) = false := beq_eq_false_iff_ne.mpr hae
        simp only [List.lookup, hbe]
        exact ih hn2.2 a b hm2

/-- A successful association-list lookup comes from a present pair. -/
theorem mem_of_lookup_eq_some {α β : Type} [BEq α] [LawfulBEq α] :
    ∀ (l : List (α × β)) (a : α) (b : β), l.lookup a = some b → (a, b) ∈ l := by
  intro l
  induction l with
  | nil =>
    intro a b h
    simp [List.lookup] at h
  | cons e l ih =>
    obtain ⟨e1, e2⟩ := e
    intro a b h
    by_cases hae : a = e1
    · have hbe : (a == e1) = true := beq_iff_eq.mpr hae
      simp only [List.lookup, hbe] at h
      obtain rfl : e2 = b := by simpa using h
      rw [hae]
      exact List.mem_cons_self _ _
    · have hbe : (a == e1) = false := beq_eq_false_iff_ne.mpr hae
      simp only [List.lookup, hbe] at h
      exact List.mem_cons_of_mem _ (ih a b h)

/-- Lookup in an association list with distinct keys is invariant under
permutation of the entries. -/
theorem lookup_eq_of_perm {α β : Type} [BEq α] [LawfulBEq α]
    (l1 l2 : List (α × β)) (hp : l1.Perm l2)
    (hn : (l1.map Prod.fst).Nodup) (a : α) :
    l1.lookup a = l2.lookup a := by
  have hn2 : (l2.map Prod.fst).Nodup := ((hp.map Prod.fst).nodup_iff).mp hn
  cases h1 : l1.lookup a with
  | some b =>
    exact (lookup_eq_some_of_mem l2 hn2 a b
      (hp.mem_iff.mp (mem_of_lookup_eq_some l1 a b h1))).symm
  | none =>
    cases h2 : l2.lookup a with
    | none => rfl
    | some b =>
      have := lookup_eq_some_of_mem l1 hn a b
        (hp.symm.mem_iff.mp (mem_of_lookup_eq_some l2 a b h2))
      rw [h1] at this
      cases this

/-- The reverse dict `{v: k for k, v in mp.items()}` is the exact inverse of
a mapping with distinct keys and distinct values. -/
theorem lookup_reverse_iff {α : Type} [BEq α] [LawfulBEq α]
    (mp : List (α × α)) (hk : (mp.map Prod.fst).Nodup)
    (hv : (mp.map Prod.snd).Nodup) (k c : α) :
    mp.lookup k = some c ↔ (mp.map fun q => (q.2, q.1)).lookup c = some k := by
  have hrk : ((mp.map fun q => (q.2, q.1)).map Prod.fst).Nodup := by
    simpa [List.map_map, Function.comp] using hv
  constructor
  · intro h
    apply lookup_eq_some_of_mem _ hrk
    exact List.mem_map.mpr ⟨(k, c), mem_of_lookup_eq_some mp k c h, rfl⟩
  · intro h
    apply lookup_eq_some_of_mem _ hk
    obtain ⟨q, hq, hqe⟩ := List.mem_map.mp (mem_of_lookup_eq_some _ c k h)
    obtain ⟨h1, h2⟩ := Prod.mk.injEq .. ▸ hqe
    have : q = (k, c) := by
      cases q
      simp_all
    rwa [this] at hq

end KeyDiscovery

namespace KeyDiscovery

/-- Characterization of the `build_nested_mapping` fold for any starting
accumulator. -/
theorem build_fold_spec (m : List (Nat × List String × List String)) :
    ∀ (cs : List (Nat × CustomerBlock)) (mi mf : Nat),
      m.foldl buildStep (cs, mi, mf) =
        (cs ++ m.map fun e => (e.1, buildCustomerBlock e.2.1 e.2.2),
         (m.map fun e => (buildCustomerBlock e.2.1 e.2.2).int_columns).foldl max mi,
         (m.map fun e => (buildCustomerBlock e.2.1 e.2.2).float_columns).foldl max mf) := by
  induction m with
  | nil =>
    intro cs mi mf
    simp
  | cons e m ih =>
    intro cs mi mf
    simp only [List.foldl_cons, List.map_cons]
    show List.foldl buildStep
      (cs ++ [(e.1, buildCustomerBlock e.2.1 e.2.2)],
       max mi (buildCustomerBlock e.2.1 e.2.2).int_columns,
       max mf (buildCustomerBlock e.2.1 e.2.2).float_columns) m = _
    rw [ih]
    simp [List.append_assoc]

/-- The customers block of the built document lists every tenant's block in
input order. -/
theorem build_customers_eq (m : List (Nat × List String × List String)) :
    (build_nested_mapping m).customers =
      m.map fun e => (e.1, buildCustomerBlock e.2.1 e.2.2) := by
  show (m.foldl buildStep ([], 0, 0)).1 = _
  rw [build_fold_spec]
  simp

/-- The int column maximum of the built document is the running maximum of
the tenants' int key counts. -/
theorem build_max_int_eq (m : List (Nat × List String × List String)) :
    (build_nested_mapping m).max_int_columns =
      (m.map fun e => (buildCustomerBlock e.2.1 e.2.2).int_columns).foldl max 0 := by
  show (m.foldl buildStep ([], 0, 0)).2.1 = _
  rw [build_fold_spec]

/-- The float column maximum of the built document is the running maximum of
the tenants' float key counts. -/
theorem build_max_float_eq (m : List (Nat × List String × List String)) :
    (build_nested_mapping m).max_float_columns =
      (m.map fun e => (buildCustomerBlock e.2.1 e.2.2).float_columns).foldl max 0 := by
  show (m.foldl buildStep ([], 0, 0)).2.2 = _
  rw [build_fold_spec]

end KeyDiscovery

namespace KeyDiscovery

/-- Helper: sorting the concrete two-element key set of the specification
scenario. -/
theorem sortedDedup_b_a :
    sortedDedup ["b_metric", "a_metric"] = ["a_metric", "b_metric"] := by
  have h1 : (["b_metric", "a_metric"] : List String).toFinset =
      (["a_metric", "b_metric"] : List String).toFinset := by
    ext a
    simp [List.mem_toFinset]
    tauto
  rw [sortedDedup, h1]
  refine (List.toFinset_sort (· ≤ ·) (by decide)).mpr ?_
  simp [List.sorted_cons]
  decide

/-- C2: in every tenant block built by the Mapping Document Builder, the int
mapping pairs the tenant's distinct int keys (exactly the observed ones, in
strict lexicographic order) with the contiguous column identifiers
int1..intK in order, where K is the tenant's int key count — a bijection with
no gaps and no duplicate targets in which the Nth key in sorted order gets
column N — and the reverse mapping is its exact inverse; the same holds for
float keys with floatN columns; every tenant entry of a built mapping
document has this shape, and the int key set consisting of b_metric and
a_metric yields the mapping a_metric to int1, b_metric to int2. -/
theorem customer_block_bijection (il fl : List String) :
    ((buildCustomerBlock il fl).int_mapping.map Prod.fst =
      (buildCustomerBlock il fl).int_keys) ∧
    ((buildCustomerBlock il fl).int_mapping.map Prod.snd =
      (List.range (buildCustomerBlock il fl).int_columns).map
        fun i => "int" ++ Nat.repr (i + 1)) ∧
    ((buildCustomerBlock il fl).int_mapping.map Prod.snd).Nodup ∧
    (buildCustomerBlock il fl).int_keys.Nodup ∧
    (buildCustomerBlock il fl).int_keys.Sorted (· < ·) ∧
    (∀ k, k ∈ (buildCustomerBlock il fl).int_keys ↔ k ∈ il) ∧
    (buildCustomerBlock il fl).int_columns =
      (buildCustomerBlock il fl).int_keys.length ∧
    (∀ i, (buildCustomerBlock il fl).int_mapping[i]? =
      ((buildCustomerBlock il fl).int_keys[i]?).map
        fun k => (k, "int" ++ Nat.repr (i + 1))) ∧
    (∀ k c, (buildCustomerBlock il fl).int_mapping.lookup k = some c ↔
      (buildCustomerBlock il fl).reverse_int_mapping.lookup c = some k) ∧
    ((buildCustomerBlock il fl).float_mapping.map Prod.fst =
      (buildCustomerBlock il fl).float_keys) ∧
    ((buildCustomerBlock il fl).float_mapping.map Prod.snd =
      (List.range (buildCustomerBlock il fl).float_columns).map
        fun i => "float" ++ Nat.repr (i + 1)) ∧
    ((buildCustomerBlock il fl).float_mapping.map Prod.snd).Nodup ∧
    (buildCustomerBlock il fl).float_keys.Nodup ∧
    (buildCustomerBlock il fl).float_keys.Sorted (· < ·) ∧
    (∀ k, k ∈ (buildCustomerBlock il fl).float_keys ↔ k ∈ fl) ∧
    (buildCustomerBlock il fl).float_columns =
      (buildCustomerBlock il fl).float_keys.length ∧
    (∀ i, (buildCustomerBlock il fl).float_mapping[i]? =
      ((buildCustomerBlock il fl).float_keys[i]?).map
        fun k => (k, "float" ++ Nat.repr (i + 1))) ∧
    (∀ k c, (buildCustomerBlock il fl).float_mapping.lookup k = some c ↔
      (buildCustomerBlock il fl).reverse_float_mapping.lookup c = some k) ∧
    (∀ m, (build_nested_mapping m).customers =
      m.map fun e => (e.1, buildCustomerBlock e.2.1 e.2.2)) ∧
    ((buildCustomerBlock ["b_metric", "a_metric"] []).int_mapping =
      [("a_metric", "int1"), ("b_metric", "int2")]) := by
  have hkeys : ∀ p l, (((sortedDedup l).enumFrom 1).map
      (fun q => (q.2, p ++ Nat.repr q.1))).map Prod.fst = sortedDedup l :=
    fun p l => mapping_map_fst (sortedDedup l) p 1
  refine ⟨mapping_map_fst _ "int" 1, mapping_map_snd_one _ "int",
    mapping_snd_nodup _ "int", sortedDedup_nodup il, sortedDedup_sorted il,
    mem_sortedDedup il, rfl, mapping_getElem _ "int",
    ?_,
    mapping_map_fst _ "float" 1, mapping_map_snd_one _ "float",
    mapping_snd_nodup _ "float", sortedDedup_nodup fl, sortedDedup_sorted fl,
    mem_sortedDedup fl, rfl, mapping_getElem _ "float",
    ?_,
    build_customers_eq, ?_⟩
  · intro k c
    apply lookup_reverse_iff
    · show ((((sortedDedup il).enumFrom 1).map
        (fun q => (q.2, "int" ++ Nat.repr q.1))).map Prod.fst).Nodup
      rw [hkeys "int" il]
      exact sortedDedup_nodup il
    · exact mapping_snd_nodup _ "int"
  · intro k c
    apply lookup_reverse_iff
    · show ((((sortedDedup fl).enumFrom 1).map
        (fun q => (q.2, "float" ++ Nat.repr q.1))).map Prod.fst).Nodup
      rw [hkeys "float" fl]
      exact sortedDedup_nodup fl
    · exact mapping_snd_nodup _ "float"
  · have hmap : (buildCustomerBlock ["b_metric", "a_metric"] []).int_mapping =
        ((["a_metric", "b_metric"] : List String).enumFrom 1).map
          (fun q => (q.2, "int" ++ Nat.repr q.1)) := by
      show ((sortedDedup ["b_metric", "a_metric"]).enumFrom 1).map
        (fun q => (q.2, "int" ++ Nat.repr q.1)) = _
      rw [sortedDedup_b_a]
    rw [hmap]
    decide

end KeyDiscovery

namespace KeyDiscovery

/-- A running maximum never falls below its seed. -/
theorem le_foldl_max_start : ∀ (l : List Nat) (a : Nat), a ≤ l.foldl max a := by
  intro l
  induction l with
  | nil =>
    intro a
    exact Nat.le_refl a
  | cons b l ih =>
    intro a
    simp only [List.foldl_cons]
    exact Nat.le_trans (Nat.le_max_left a b) (ih (max a b))

/-- A running maximum dominates every list element. -/
theorem foldl_max_le_of_mem :
    ∀ (l : List Nat) (a x : Nat), x ∈ l → x ≤ l.foldl max a := by
  intro l
  induction l with
  | nil =>
    intro a x h
    simp at h
  | cons b l ih =>
    intro a x h
    simp only [List.foldl_cons]
    rcases List.mem_cons.mp h with hxb | h2
    · subst hxb
      exact Nat.le_trans (Nat.le_max_right a x) (le_foldl_max_start l (max a x))
    · exact ih (max a b) x h2

/-- A running maximum is either its seed or attained by a list element. -/
theorem foldl_max_attained :
    ∀ (l : List Nat) (a : Nat), l.foldl max a = a ∨ ∃ x ∈ l, l.foldl max a = x := by
  intro l
  induction l with
  | nil =>
    intro a
    exact Or.inl rfl
  | cons b l ih =>
    intro a
    simp only [List.foldl_cons]
    rcases ih (max a b) with h | ⟨x, hx, hfx⟩
    · rcases max_choice a b with hc | hc
      · exact Or.inl (by rw [h, hc])
      · exact Or.inr ⟨b, List.mem_cons_self b l, by rw [h, hc]⟩
    · exact Or.inr ⟨x, List.mem_cons_of_mem b hx, hfx⟩

/-- C3: in the built mapping document `max_int_columns` is at least every
tenant's individual int key count and, when at least one tenant is present,
equals some tenant's int key count (so it is the maximum over all tenants);
symmetrically for `max_float_columns`; adding a tenant with zero keys of a
kind leaves the corresponding maximum unchanged (it contributes 0). -/
theorem build_nested_mapping_max_columns (m : List (Nat × List String × List String)) :
    (∀ p ∈ (build_nested_mapping m).customers,
      p.2.int_columns ≤ (build_nested_mapping m).max_int_columns ∧
      p.2.float_columns ≤ (build_nested_mapping m).max_float_columns) ∧
    (m ≠ [] →
      (∃ p ∈ (build_nested_mapping m).customers,
        (build_nested_mapping m).max_int_columns = p.2.int_columns) ∧
      (∃ p ∈ (build_nested_mapping m).customers,
        (build_nested_mapping m).max_float_columns = p.2.float_columns)) ∧
    (∀ c fl, (build_nested_mapping (m ++ [(c, [], fl)])).max_int_columns =
      (build_nested_mapping m).max_int_columns) ∧
    (∀ c il, (build_nested_mapping (m ++ [(c, il, [])])).max_float_columns =
      (build_nested_mapping m).max_float_columns) := by
  refine ⟨?_, ?_, ?_, ?_⟩
  · intro p hp
    rw [build_customers_eq] at hp
    obtain ⟨e, he, rfl⟩ := List.mem_map.mp hp
    constructor
    · rw [build_max_int_eq]
      exact foldl_max_le_of_mem _ 0 _ (List.mem_map.mpr ⟨e, he, rfl⟩)
    · rw [build_max_float_eq]
      exact foldl_max_le_of_mem _ 0 _ (List.mem_map.mpr ⟨e, he, rfl⟩)
  · intro hm
    constructor
    · rw [build_max_int_eq, build_customers_eq]
      rcases foldl_max_attained
          (m.map fun e => (buildCustomerBlock e.2.1 e.2.2).int_columns) 0 with h0 | hx
      · obtain ⟨e, he⟩ := List.exists_mem_of_ne_nil m hm
        refine ⟨(e.1, buildCustomerBlock e.2.1 e.2.2),
          List.mem_map.mpr ⟨e, he, rfl⟩, ?_⟩
        have hle := foldl_max_le_of_mem
          (m.map fun e => (buildCustomerBlock e.2.1 e.2.2).int_columns) 0
          ((buildCustomerBlock e.2.1 e.2.2).int_columns)
          (List.mem_map.mpr ⟨e, he, rfl⟩)
        show _ = (buildCustomerBlock e.2.1 e.2.2).int_columns
        omega
      · obtain ⟨x, hxm, hfx⟩ := hx
        obtain ⟨e, he, hex⟩ := List.mem_map.mp hxm
        exact ⟨(e.1, buildCustomerBlock e.2.1 e.2.2),
          List.mem_map.mpr ⟨e, he, rfl⟩, by rw [hfx, hex]⟩
    · rw [build_max_float_eq, build_customers_eq]
      rcases foldl_max_attained
          (m.map fun e => (buildCustomerBlock e.2.1 e.2.2).float_columns) 0 with h0 | hx
      · obtain ⟨e, he⟩ := List.exists_mem_of_ne_nil m hm
        refine ⟨(e.1, buildCustomerBlock e.2.1 e.2.2),
          List.mem_map.mpr ⟨e, he, rfl⟩, ?_⟩
        have hle := foldl_max_le_of_mem
          (m.map fun e => (buildCustomerBlock e.2.1 e.2.2).float_columns) 0
          ((buildCustomerBlock e.2.1 e.2.2).float_columns)
          (List.mem_map.mpr ⟨e, he, rfl⟩)
        show _ = (buildCustomerBlock e.2.1 e.2.2).float_columns
        omega
      · obtain ⟨x, hxm, hfx⟩ := hx
        obtain ⟨e, he, hex⟩ := List.mem_map.mp hxm
        exact ⟨(e.1, buildCustomerBlock e.2.1 e.2.2),
          List.mem_map.mpr ⟨e, he, rfl⟩, by rw [hfx, hex]⟩
  · intro c fl
    rw [build_max_int_eq, build_max_int_eq]
    have hz : (buildCustomerBlock [] fl).int_columns = 0 := by
      show (sortedDedup []).length = 0
      simp [sortedDedup]
    simp [List.map_append, List.foldl_append, hz]
  · intro c il
    rw [build_max_float_eq, build_max_float_eq]
    have hz : (buildCustomerBlock il []).float_columns = 0 := by
      show (sortedDedup []).length = 0
      simp [sortedDedup]
    simp [List.map_append, List.foldl_append, hz]

/-- Witness for `build_nested_mapping_max_columns` on two tenants with 1 and
2 int keys: the attained-maximum clause holds for the concrete input. -/
theorem build_nested_mapping_max_columns_witness :
    ∃ p ∈ (build_nested_mapping [(1, ["a"], []), (2, ["x", "y"], [])]).customers,
      (build_nested_mapping [(1, ["a"], []), (2, ["x", "y"], [])]).max_int_columns =
        p.2.int_columns :=
  ((build_nested_mapping_max_columns [(1, ["a"], []), (2, ["x", "y"], [])]).2.1
    (by simp)).1

end KeyDiscovery

namespace KeyDiscovery

/-- Folding any step that ignores failures over a list of failed outcomes is
the identity. -/
theorem foldl_replicate_none_fixed {β γ : Type}
    (f : β → Option γ → β) (hf : ∀ b, f b none = b) :
    ∀ (n : Nat) (b : β), (List.replicate n none).foldl f b = b := by
  intro n
  induction n with
  | zero =>
    intro b
    rfl
  | succ n ih =>
    intro b
    rw [List.replicate_succ, List.foldl_cons, hf]
    exact ih b

/-- One merge step contributes exactly the successful outcome's int keys. -/
theorem discover_step_mem_fst (acc : Finset String × Finset String)
    (r : Option (List String × List String)) (k : String) :
    k ∈ (discover_step acc r).1 ↔ k ∈ acc.1 ∨ ∃ p, r = some p ∧ k ∈ p.1 := by
  cases r with
  | none => simp [discover_step]
  | some p0 =>
    obtain ⟨il2, fl2⟩ := p0
    by_cases h : il2.isEmpty
    · have hnil : il2 = [] := by simpa using h
      subst hnil
      simp [discover_step]
    · simp [discover_step, h, Finset.mem_union, List.mem_toFinset]

/-- One merge step contributes exactly the successful outcome's float keys. -/
theorem discover_step_mem_snd (acc : Finset String × Finset String)
    (r : Option (List String × List String)) (k : String) :
    k ∈ (discover_step acc r).2 ↔ k ∈ acc.2 ∨ ∃ p, r = some p ∧ k ∈ p.2 := by
  cases r with
  | none => simp [discover_step]
  | some p0 =>
    obtain ⟨il2, fl2⟩ := p0
    by_cases h : fl2.isEmpty
    · have hnil : fl2 = [] := by simpa using h
      subst hnil
      simp [discover_step]
    · simp [discover_step, h, Finset.mem_union, List.mem_toFinset]

/-- Membership in the merged day result, for any starting accumulator. -/
theorem discover_fold_mem :
    ∀ (results : List (Option (List String × List String)))
      (acc : Finset String × Finset String) (k : String),
      (k ∈ (results.foldl discover_step acc).1 ↔
        k ∈ acc.1 ∨ ∃ p, some p ∈ results ∧ k ∈ p.1) ∧
      (k ∈ (results.foldl discover_step acc).2 ↔
        k ∈ acc.2 ∨ ∃ p, some p ∈ results ∧ k ∈ p.2) := by
  intro results
  induction results with
  | nil =>
    intro acc k
    simp
  | cons r results ih =>
    intro acc k
    obtain ⟨h1, h2⟩ := ih (discover_step acc r) k
    simp only [List.foldl_cons]
    constructor
    · rw [h1, discover_step_mem_fst]
      simp only [List.mem_cons]
      constructor
      · rintro ((hk | ⟨p, hp, hkp⟩) | ⟨p, hp, hkp⟩)
        · exact Or.inl hk
        · exact Or.inr ⟨p, Or.inl hp.symm, hkp⟩
        · exact Or.inr ⟨p, Or.inr hp, hkp⟩
      · rintro (hk | ⟨p, hp | hp, hkp⟩)
        · exact Or.inl (Or.inl hk)
        · exact Or.inl (Or.inr ⟨p, hp.symm, hkp⟩)
        · exact Or.inr ⟨p, hp, hkp⟩
    · rw [h2, discover_step_mem_snd]
      simp only [List.mem_cons]
      constructor
      · rintro ((hk | ⟨p, hp, hkp⟩) | ⟨p, hp, hkp⟩)
        · exact Or.inl hk
        · exact Or.inr ⟨p, Or.inl hp.symm, hkp⟩
        · exact Or.inr ⟨p, Or.inr hp, hkp⟩
      · rintro (hk | ⟨p, hp | hp, hkp⟩)
        · exact Or.inl (Or.inl hk)
        · exact Or.inl (Or.inr ⟨p, hp.symm, hkp⟩)
        · exact Or.inr ⟨p, hp, hkp⟩

/-- C5 (counterexample): the claim says the day-level discovery operation
returns normally with empty key sets when every window fails, but
`SimpleKeyDiscoverer.discover_all_keys` raises
`Exception("No chunks processed successfully")` when its only chunk fails —
it never returns a value. -/
theorem discover_all_keys_raises_on_total_failure :
    discover_all_keys [none] =
      .error (.exception "No chunks processed successfully") ∧
    ∀ v, discover_all_keys [none] ≠ .ok v := by
  constructor
  · rfl
  · intro v h
    cases h

/-- C5 (amended): the multithreaded day-level discovery
(`discover_all_keys_for_customer_day_mt`) tolerates total window failure
without raising — a day whose window scans all fail yields the empty int and
float key sets — and in general its result holds exactly the keys of the
successful windows, failed windows contributing nothing; the sequential
`SimpleKeyDiscoverer.discover_all_keys`, by contrast, raises
`Exception("No chunks processed successfully")` when every chunk fails. -/
theorem discover_day_partial_failure :
    (∀ n, discover_all_keys_for_customer_day_mt (List.replicate n none) = (∅, ∅)) ∧
    (∀ results k,
      k ∈ (discover_all_keys_for_customer_day_mt results).1 ↔
        ∃ p, some p ∈ results ∧ k ∈ p.1) ∧
    (∀ results k,
      k ∈ (discover_all_keys_for_customer_day_mt results).2 ↔
        ∃ p, some p ∈ results ∧ k ∈ p.2) ∧
    (∀ n, discover_all_keys (List.replicate n none) =
      .error (.exception "No chunks processed successfully")) := by
  refine ⟨?_, ?_, ?_, ?_⟩
  · intro n
    exact foldl_replicate_none_fixed discover_step (fun b => rfl) n (∅, ∅)
  · intro results k
    have h := (discover_fold_mem results (∅, ∅) k).1
    simpa using h
  · intro results k
    have h := (discover_fold_mem results (∅, ∅) k).2
    simpa using h
  · intro n
    have hfold := foldl_replicate_none_fixed
      (fun (acc : Finset String × Finset String × Nat)
          (o : Option (List String × List String)) =>
        match o with
        | none => acc
        | some (ints, floats) =>
          (acc.1 ∪ (ints.filter keepKey).toFinset,
           acc.2.1 ∪ (floats.filter keepKey).toFinset,
           acc.2.2 + 1)) (fun b => rfl) n ((∅, ∅, 0) : Finset String × Finset String × Nat)
    simp only [discover_all_keys, hfold]
    rfl

end KeyDiscovery

namespace KeyDiscovery

/-- Lookup after one accumulation step of `main`: the processed tenant's sets
become the union of its previous sets with the day's sets; every other
tenant's entry is unchanged. -/
theorem lookupKeys_step_mt :
    ∀ (acc : List (Nat × Finset String × Finset String)) (cid : Nat)
      (d : Finset String × Finset String) (c : Nat),
      lookupKeys (step_mt acc cid d) c =
        if c = cid then
          ((lookupKeys acc cid).1 ∪ d.1, (lookupKeys acc cid).2 ∪ d.2)
        else lookupKeys acc c := by
  intro acc
  induction acc with
  | nil =>
    intro cid d c
    by_cases hc : c = cid
    · subst hc
      simp [step_mt, lookupKeys]
    · have hbe : (c == cid) = false := by simp [hc]
      simp [step_mt, lookupKeys, List.lookup_cons, hbe, hc]
  | cons e rest ih =>
    intro cid d c
    obtain ⟨e1, es⟩ := e
    simp only [step_mt]
    by_cases he : e1 = cid
    · rw [if_pos he]
      subst he
      by_cases hc : c = e1
      · subst hc
        simp [lookupKeys, List.lookup_cons]
      · have hbe : (c == e1) = false := by simp [hc]
        simp [lookupKeys, List.lookup_cons, hbe, hc]
    · rw [if_neg he]
      by_cases hc : c = e1
      · have hbe : (c == e1) = true := by simp [hc]
        have hcid : ¬ c = cid := by
          rw [hc]
          exact he
        simp [lookupKeys, List.lookup_cons, hbe, hcid]
      · have hbe : (c == e1) = false := by simp [hc]
        by_cases hccid : c = cid
        · subst hccid
          have hbecid : (c == e1) = false := hbe
          rw [if_pos rfl]
          have hh := ih c d c
          rw [if_pos rfl] at hh
          simp only [lookupKeys, List.lookup_cons, hbecid] at hh ⊢
          exact hh
        · rw [if_neg hccid]
          have hh := ih cid d c
          rw [if_neg hccid] at hh
          simp only [lookupKeys, List.lookup_cons, hbe] at hh ⊢
          exact hh

/-- Appending one event to a run folds it through one accumulation step. -/
theorem run_mt_append (evs : List (Nat × Finset String × Finset String))
    (e : Nat × Finset String × Finset String) :
    run_mt (evs ++ [e]) = step_mt (run_mt evs) e.1 e.2 := by
  simp [run_mt, List.foldl_append]

/-- A union fold factors through its starting set. -/
theorem foldl_union_start (l : List (Finset String)) :
    ∀ i : Finset String, l.foldl (· ∪ ·) i = i ∪ l.foldl (· ∪ ·) ∅ := by
  induction l with
  | nil =>
    intro i
    simp
  | cons s l ih =>
    intro i
    simp only [List.foldl_cons]
    rw [ih (i ∪ s), ih (∅ ∪ s)]
    simp [Finset.union_assoc]

/-- Appending one event extends the per-tenant day union exactly when the
event belongs to that tenant. -/
theorem dayUnion_append (evs : List (Nat × Finset String × Finset String))
    (e : Nat × Finset String × Finset String) (c : Nat) :
    dayUnion (evs ++ [e]) c =
      if e.1 = c then
        ((dayUnion evs c).1 ∪ e.2.1, (dayUnion evs c).2 ∪ e.2.2)
      else dayUnion evs c := by
  by_cases h : e.1 = c
  · have hb : (e.1 == c) = true := by simp [h]
    simp [dayUnion, List.filter_append, hb, List.foldl_append, h]
  · have hb : (e.1 == c) = false := by simp [h]
    simp [dayUnion, List.filter_append, hb, h]

/-- The final accumulator of a run holds, for every tenant, exactly the union
of that tenant's day results. -/
theorem lookupKeys_run_mt (evs : List (Nat × Finset String × Finset String))
    (c : Nat) :
    lookupKeys (run_mt evs) c = dayUnion evs c := by
  induction evs using List.reverseRecOn with
  | nil => simp [run_mt, lookupKeys, dayUnion]
  | append_singleton evs e ih =>
    rw [run_mt_append, lookupKeys_step_mt, dayUnion_append]
    by_cases h : c = e.1
    · subst h
      rw [if_pos rfl, if_pos rfl, ih]
    · rw [if_neg h, if_neg (fun hh => h hh.symm)]
      exact ih

end KeyDiscovery

namespace KeyDiscovery

/-- C1 (amended): in the multithreaded all-customers discoverer, processing a
(day, tenant) pair unions that day's int and float key sets into the tenant's
accumulated sets and leaves every other tenant's sets unchanged, so per-tenant
key sets only grow during a run and a tenant active on several days ends with
the union of all its days' keys; in the tag-group discoverer, by contrast,
processing a (day, tenant) pair replaces the tenant's accumulated set with
that day's set. -/
theorem accumulate_union_monotone :
    (∀ acc cid d c,
      lookupKeys (step_mt acc cid d) c =
        if c = cid then
          ((lookupKeys acc cid).1 ∪ d.1, (lookupKeys acc cid).2 ∪ d.2)
        else lookupKeys acc c) ∧
    (∀ acc cid d c,
      (lookupKeys acc c).1 ⊆ (lookupKeys (step_mt acc cid d) c).1 ∧
      (lookupKeys acc c).2 ⊆ (lookupKeys (step_mt acc cid d) c).2) ∧
    (∀ evs c, lookupKeys (run_mt evs) c = dayUnion evs c) ∧
    (∀ acc cid d, (step_tag acc cid d).lookup cid = some d) := by
  refine ⟨lookupKeys_step_mt, ?_, lookupKeys_run_mt, ?_⟩
  · intro acc cid d c
    rw [lookupKeys_step_mt]
    by_cases h : c = cid
    · subst h
      rw [if_pos rfl]
      exact ⟨Finset.subset_union_left, Finset.subset_union_left⟩
    · rw [if_neg h]
      exact ⟨Finset.Subset.refl _, Finset.Subset.refl _⟩
  · intro acc
    induction acc with
    | nil =>
      intro cid d
      simp [step_tag]
    | cons e rest ih =>
      intro cid d
      obtain ⟨e1, es⟩ := e
      simp only [step_tag]
      by_cases he : e1 = cid
      · rw [if_pos he]
        subst he
        simp [List.lookup_cons]
      · rw [if_neg he]
        have hbe : (cid == e1) = false := by
          simp only [beq_eq_false_iff_ne, ne_eq]
          intro hh
          exact he hh.symm
        simp only [List.lookup_cons, hbe]
        exact ih cid d

/-- Witness for `accumulate_union_monotone`: one concrete accumulation step
unions the day's keys into tenant 1's entry. -/
theorem accumulate_union_monotone_witness :
    lookupKeys (step_mt [] 1 ({"a"}, ∅)) 1 =
      ((lookupKeys [] 1).1 ∪ {"a"}, (lookupKeys [] 1).2 ∪ ∅) := by
  have h := accumulate_union_monotone.1 [] 1 ({"a"}, ∅) 1
  simpa using h

/-- C1 (counterexample): in the tag-group discoverer a tenant active on two
days keeps only the last day's keys: after recording day sets {"a"} then
{"b"} for tenant 1 the accumulator holds {"b"}, not the union of the
previously accumulated {"a"} with {"b"} — the accumulated set lost "a". -/
theorem run_tag_overwrites_counterexample :
    run_tag [(1, {"a"}), (1, {"b"})] = [(1, {"b"})] ∧
    ({"b"} : Finset String) ≠ ({"a"} : Finset String) ∪ {"b"} := by
  constructor
  · rfl
  · intro h
    have ha : ("a" : String) ∈ ({"a"} : Finset String) ∪ {"b"} := by simp
    rw [← h] at ha
    simp at ha

end KeyDiscovery

namespace KeyDiscovery

/-- An accumulation step never empties the accumulator. -/
theorem step_mt_ne_nil (acc : List (Nat × Finset String × Finset String))
    (cid : Nat) (d : Finset String × Finset String) :
    step_mt acc cid d ≠ [] := by
  cases acc with
  | nil => simp [step_mt]
  | cons e rest =>
    simp only [step_mt]
    split
    · simp
    · simp

/-- Processing a day preserves a non-empty accumulator. -/
theorem process_day_ne_nil :
    ∀ (day : List (Nat × List (Option (List String × List String))))
      (acc : List (Nat × Finset String × Finset String)),
      acc ≠ [] → process_day acc day ≠ [] := by
  intro day
  induction day with
  | nil =>
    intro acc h
    exact h
  | cons e day ih =>
    intro acc h
    show process_day (step_mt acc e.1 (discover_all_keys_for_customer_day_mt e.2)) day ≠ []
    exact ih _ (step_mt_ne_nil _ _ _)

/-- Processing a day with at least one discovered tenant makes the
accumulator non-empty. -/
theorem process_day_nonempty_ne_nil
    (day : List (Nat × List (Option (List String × List String))))
    (acc : List (Nat × Finset String × Finset String)) (h : day ≠ []) :
    process_day acc day ≠ [] := by
  cases day with
  | nil => exact absurd rfl h
  | cons e day =>
    show process_day (step_mt acc e.1 (discover_all_keys_for_customer_day_mt e.2)) day ≠ []
    exact process_day_ne_nil day _ (step_mt_ne_nil _ _ _)

/-- The run accumulator is empty exactly when it started empty and every
processed day discovered no tenants. -/
theorem foldl_process_day_empty_iff :
    ∀ (days : List (List (Nat × List (Option (List String × List String)))))
      (acc : List (Nat × Finset String × Finset String)),
      days.foldl process_day acc = [] ↔ (acc = [] ∧ ∀ day ∈ days, day = []) := by
  intro days
  induction days with
  | nil =>
    intro acc
    simp
  | cons day days ih =>
    intro acc
    simp only [List.foldl_cons]
    rw [ih (process_day acc day)]
    constructor
    · rintro ⟨h1, h2⟩
      by_cases hd : day = []
      · subst hd
        refine ⟨h1, ?_⟩
        intro d hd2
        rcases List.mem_cons.mp hd2 with rfl | hmem
        · rfl
        · exact h2 d hmem
      · exact absurd h1 (process_day_nonempty_ne_nil day acc hd)
    · rintro ⟨h1, h2⟩
      have hd : day = [] := h2 day (List.mem_cons_self _ _)
      subst hd
      exact ⟨h1, fun d hd2 => h2 d (List.mem_cons_of_mem _ hd2)⟩

/-- C6 (amended): the run aborts with `SystemExit` — and therefore persists
no mapping document — exactly when no tenant was discovered on any processed
day; once at least one tenant is discovered, the mapping document is built
and persisted even if every window scan of the entire run failed (such
tenants simply get empty key sets). -/
theorem main_result_error_iff
    (days : List (List (Nat × List (Option (List String × List String))))) :
    (∃ msg, main_result days = .error (.systemExit msg)) ↔
      ∀ day ∈ days, day = [] := by
  constructor
  · rintro ⟨msg, h⟩
    by_cases hacc : (run_accumulate days).isEmpty
    · rw [List.isEmpty_iff] at hacc
      exact ((foldl_process_day_empty_iff days []).mp hacc).2
    · exfalso
      simp [main_result, hacc] at h
  · intro hall
    have hacc : run_accumulate days = [] :=
      (foldl_process_day_empty_iff days []).mpr ⟨rfl, hall⟩
    refine ⟨"no customers or keys found in the given date range", ?_⟩
    simp [main_result, hacc]

/-- Witness for `main_result_error_iff`: a run whose single day discovered no
tenants aborts with `SystemExit`. -/
theorem main_result_error_iff_witness :
    ∃ msg, main_result [[]] = .error (.systemExit msg) :=
  (main_result_error_iff [[]]).mpr (by simp)

/-- C6 (counterexample): one processed day with one discovered tenant whose
12 window scans all failed — zero successful windows anywhere in the run —
still persists a mapping document (the tenant gets empty key lists) instead
of terminating with an error. -/
theorem main_persists_despite_zero_successful_windows :
    main_result [[(1, List.replicate 12 none)]] =
      .ok (build_nested_mapping [(1, [], [])]) := by
  have hacc : run_accumulate [[(1, List.replicate 12 none)]] =
      [(1, ∅ ∪ ∅, ∅ ∪ ∅)] := rfl
  show (if (run_accumulate [[(1, List.replicate 12 none)]]).isEmpty then
      Except.error (PyError.systemExit "no customers or keys found in the given date range")
    else
      Except.ok (build_nested_mapping
        ((run_accumulate [[(1, List.replicate 12 none)]]).map fun e =>
          (e.1, e.2.1.sort (· ≤ ·), e.2.2.sort (· ≤ ·))))) = _
  rw [hacc]
  simp [Finset.sort_empty]

end KeyDiscovery

namespace KeyDiscovery

/-- A tenant block depends only on the normalized (sorted, deduplicated) key
lists. -/
theorem buildCustomerBlock_normalize (il fl : List String) :
    buildCustomerBlock (sortedDedup il) (sortedDedup fl) =
      buildCustomerBlock il fl := by
  simp [buildCustomerBlock, sortedDedup_idem]

/-- A maximum fold is invariant under permutation of the list. -/
theorem foldl_max_perm {l1 l2 : List Nat} (h : l1.Perm l2) :
    ∀ a : Nat, l1.foldl max a = l2.foldl max a := by
  induction h with
  | nil =>
    intro a
    rfl
  | cons x h ih =>
    intro a
    simp only [List.foldl_cons]
    exact ih (max a x)
  | swap x y l =>
    intro a
    simp only [List.foldl_cons]
    rw [sup_right_comm]
  | trans h1 h2 ih1 ih2 =>
    intro a
    rw [ih1 a, ih2 a]

/-- The customers block is the normalized entry list mapped through the block
builder. -/
theorem build_customers_normalized (m : List (Nat × List String × List String)) :
    (build_nested_mapping m).customers =
      (m.map normalizeEntry).map fun e => (e.1, buildCustomerBlock e.2.1 e.2.2) := by
  rw [build_customers_eq, List.map_map]
  apply List.map_congr_left
  intro e _
  show (e.1, buildCustomerBlock e.2.1 e.2.2) =
    (e.1, buildCustomerBlock (sortedDedup e.2.1) (sortedDedup e.2.2))
  rw [buildCustomerBlock_normalize]

/-- The int column maximum depends only on the normalized entry list. -/
theorem build_max_int_normalized (m : List (Nat × List String × List String)) :
    (build_nested_mapping m).max_int_columns =
      ((m.map normalizeEntry).map fun e =>
        (buildCustomerBlock e.2.1 e.2.2).int_columns).foldl max 0 := by
  rw [build_max_int_eq, List.map_map]
  congr 1
  apply List.map_congr_left
  intro e _
  show (buildCustomerBlock e.2.1 e.2.2).int_columns =
    (buildCustomerBlock (sortedDedup e.2.1) (sortedDedup e.2.2)).int_columns
  rw [buildCustomerBlock_normalize]

/-- The float column maximum depends only on the normalized entry list. -/
theorem build_max_float_normalized (m : List (Nat × List String × List String)) :
    (build_nested_mapping m).max_float_columns =
      ((m.map normalizeEntry).map fun e =>
        (buildCustomerBlock e.2.1 e.2.2).float_columns).foldl max 0 := by
  rw [build_max_float_eq, List.map_map]
  congr 1
  apply List.map_congr_left
  intro e _
  show (buildCustomerBlock e.2.1 e.2.2).float_columns =
    (buildCustomerBlock (sortedDedup e.2.1) (sortedDedup e.2.2)).float_columns
  rw [buildCustomerBlock_normalize]

/-- C8: the Mapping Document Builder is deterministic in its input key sets:
two runs whose entry lists carry the same tenants with the same int and float
key sets — in any tenant order and any key iteration order — produce
documents that agree on the global column maxima and on every tenant's block
(key lists, mappings, reverse mappings and column counts). -/
theorem build_nested_mapping_deterministic
    (m1 m2 : List (Nat × List String × List String))
    (hids : (m1.map Prod.fst).Nodup)
    (hperm : (m1.map normalizeEntry).Perm (m2.map normalizeEntry)) :
    (build_nested_mapping m1).max_int_columns =
      (build_nested_mapping m2).max_int_columns ∧
    (build_nested_mapping m1).max_float_columns =
      (build_nested_mapping m2).max_float_columns ∧
    ∀ cid, (build_nested_mapping m1).customers.lookup cid =
      (build_nested_mapping m2).customers.lookup cid := by
  refine ⟨?_, ?_, ?_⟩
  · rw [build_max_int_normalized, build_max_int_normalized]
    exact foldl_max_perm (hperm.map _) 0
  · rw [build_max_float_normalized, build_max_float_normalized]
    exact foldl_max_perm (hperm.map _) 0
  · intro cid
    rw [build_customers_normalized, build_customers_normalized]
    apply lookup_eq_of_perm _ _ (hperm.map _)
    have hfst : ((m1.map normalizeEntry).map
        (fun e => (e.1, buildCustomerBlock e.2.1 e.2.2))).map Prod.fst =
        m1.map Prod.fst := by
      simp [List.map_map, Function.comp, normalizeEntry]
    rw [hfst]
    exact hids

/-- Witness for `build_nested_mapping_deterministic`: the same tenant given
its keys in two different orders (with a duplicate) yields the same maximum
int column count. -/
theorem build_nested_mapping_deterministic_witness :
    (build_nested_mapping [(1, ["b", "a"], [])]).max_int_columns =
      (build_nested_mapping [(1, ["a", "b", "a"], [])]).max_int_columns := by
  refine (build_nested_mapping_deterministic
    [(1, ["b", "a"], [])] [(1, ["a", "b", "a"], [])] (by simp) ?_).1
  have h1 : (["b", "a"] : List String).toFinset =
      (["a", "b", "a"] : List String).toFinset := by
    ext x
    simp [List.mem_toFinset]
  have h2 : sortedDedup ["b", "a"] = sortedDedup ["a", "b", "a"] :=
    sortedDedup_eq_of_toFinset_eq h1
  simp only [List.map_cons, List.map_nil, normalizeEntry, h2]
  exact List.Perm.refl _

end KeyDiscovery
